import Mathlib

/-!
Shallow embedding of the Markdown renderer in
`frontend/app/components/MarkdownRenderer.js`.

Strings are modelled as `List Char`; a nullable string is `Option (List Char)`
(JavaScript's falsy guard `if (!content) return null` treats both `null` and
the empty string as "no content").  The two `while` loops of the source
(`renderMarkdown`'s block-segmentation loop and `renderInline`'s scanning
loop) advance a cursor by at least one line / one character per iteration,
so they are embedded with an explicit iteration bound equal to the number of
lines / characters; the bound's sufficiency (fuel irrelevance) is proved
below and is exactly the termination argument of the source loops.
-/

namespace MdRender

/-- The character test in JavaScript trim / `\s` for the characters that can
actually occur here (lines never contain `'\n'`, content is ASCII text). -/
def ws (c : Char) : Bool := c.isWhitespace

/-- JavaScript `String.prototype.trim`: drop whitespace from both ends. -/
def trimChars (l : List Char) : List Char :=
  ((l.dropWhile ws).reverse.dropWhile ws).reverse

/-- First-argument string starts with the second-argument pattern
(JavaScript `String.prototype.startsWith`). -/
def startsWithL : List Char → List Char → Bool
  | _, [] => true
  | [], _ :: _ => false
  | c :: cs, p :: ps => c = p && startsWithL cs ps

/-- JavaScript `String.prototype.split(sep)` for a one-character separator:
always returns one more piece than there are separators, pieces may be
empty (`"".split(s) = [""]`). -/
def splitOnChar (sep : Char) : List Char → List (List Char)
  | [] => [[]]
  | c :: cs =>
    if c = sep then [] :: splitOnChar sep cs
    else
      match splitOnChar sep cs with
      | [] => [[c]]
      | l :: ls => (c :: l) :: ls

/-- JavaScript `Array.prototype.join('\n')`. -/
def joinLines : List (List Char) → List Char
  | [] => []
  | [l] => l
  | l :: ls => l ++ '\n' :: joinLines ls

/-- Inline spans produced by `renderInline`. -/
inductive Inline where
  | text (s : List Char)
  | code (s : List Char)
  | bold (s : List Char)
  | italic (s : List Char)
deriving DecidableEq

/-- The special characters of the inline scanner (`/[`*]/`). -/
def isSpecial (c : Char) : Bool := c = '`' || c = '*'

/-- JavaScript `remaining.search(/[`*]/)`: index of the first special
character, `none` when there is none. -/
def findSpecialIdx : List Char → Option Nat
  | [] => none
  | c :: cs => if isSpecial c then some 0 else (findSpecialIdx cs).map (· + 1)

/-- The match `remaining.match(/^`([^`]+)`/)`: a backtick, a nonempty run of
non-backticks (greedy, captured), a backtick.  Returns the captured content
and the remainder after the whole match. -/
def tryCode : List Char → Option (List Char × List Char)
  | [] => none
  | c :: rest =>
    if c = '`' then
      let content := rest.takeWhile (fun x => x ≠ '`')
      if content.isEmpty then none
      else
        match rest.dropWhile (fun x => x ≠ '`') with
        | '`' :: rest2 => some (content, rest2)
        | _ => none
    else none

/-- The match `remaining.match(/^\*\*([^*]+)\*\*/)`. -/
def tryBold : List Char → Option (List Char × List Char)
  | c1 :: c2 :: rest =>
    if c1 = '*' ∧ c2 = '*' then
      let content := rest.takeWhile (fun x => x ≠ '*')
      if content.isEmpty then none
      else
        match rest.dropWhile (fun x => x ≠ '*') with
        | '*' :: '*' :: rest2 => some (content, rest2)
        | _ => none
    else none
  | _ => none

/-- The match `remaining.match(/^\*([^*]+)\*/)`. -/
def tryItalic : List Char → Option (List Char × List Char)
  | [] => none
  | c :: rest =>
    if c = '*' then
      let content := rest.takeWhile (fun x => x ≠ '*')
      if content.isEmpty then none
      else
        match rest.dropWhile (fun x => x ≠ '*') with
        | '*' :: rest2 => some (content, rest2)
        | _ => none
    else none

/-- The body of `renderInline`'s `while (remaining.length > 0)` loop, with an
explicit iteration bound.  Every iteration of the source loop consumes at
least one character, so a bound of `remaining.length` iterations is always
sufficient (proved as `scanGo_fuel`). -/
def scanGo : Nat → List Char → List Inline
  | 0, _ => []
  | _, [] => []
  | fuel + 1, c :: cs =>
    match tryCode (c :: cs) with
    | some (content, rest) => .code content :: scanGo fuel rest
    | none =>
      match tryBold (c :: cs) with
      | some (content, rest) => .bold content :: scanGo fuel rest
      | none =>
        match tryItalic (c :: cs) with
        | some (content, rest) => .italic content :: scanGo fuel rest
        | none =>
          match findSpecialIdx (c :: cs) with
          | none => [.text (c :: cs)]
          | some 0 => .text [c] :: scanGo fuel cs
          | some (n + 1) =>
            .text ((c :: cs).take (n + 1)) :: scanGo fuel ((c :: cs).drop (n + 1))

/-- The inline scanning loop at its sufficient iteration bound. -/
def scanInline (l : List Char) : List Inline := scanGo l.length l

/-- `renderInline`: the falsy guard `if (!text) return text` followed by the
scanning loop. -/
def renderInline (t : List Char) : List Inline :=
  if t.isEmpty then [] else scanInline t

/-- Block nodes produced by `renderMarkdown`.  A block carries the raw text
the source hands to `renderInline` (the inline rendering of that text is
presentation, applied per span at display time); `table` carries the header
row and the body rows, each row a list of trimmed cell strings; `nullB` is
the `null` value `renderTable` returns for an all-separator table, which the
source pushes into the element array. -/
inductive Block where
  | para (text : List Char)
  | heading (level : Nat) (text : List Char)
  | bulletList (items : List (List Char))
  | numberedList (items : List (List Char))
  | codeBlock (content : List Char)
  | table (header : List (List Char)) (body : List (List (List Char)))
  | brk
  | nullB
deriving DecidableEq

/-- The character class `[-:\s|]` of the separator-row pattern. -/
def sepClass (c : Char) : Bool := c = '-' || c = ':' || ws c || c = '|'

/-- The test `line.trim().match(/^\|[-:\s|]+\|$/)`: a pipe, at least one
character of the class, a final pipe. -/
def isSepRow : List Char → Bool
  | [] => false
  | c :: rest =>
    c = '|' && 2 ≤ rest.length && rest.getLast? = some '|' && rest.dropLast.all sepClass

/-- `line.split('|').slice(1, -1).map(cell => cell.trim())`. -/
def rowCells (line : List Char) : List (List Char) :=
  (((splitOnChar '|' line).drop 1).dropLast).map trimChars

/-- The `rows` computation of `renderTable`: drop separator rows, split the
rest into trimmed cells. -/
def tableRows (tableLines : List (List Char)) : List (List (List Char)) :=
  (tableLines.filter (fun l => !isSepRow (trimChars l))).map rowCells

/-- `renderTable`: `null` when no rows survive the separator filter,
otherwise a table whose header is the first surviving row and whose body is
the rest. -/
def renderTable (tableLines : List (List Char)) : Option Block :=
  match tableRows tableLines with
  | [] => none
  | h :: b => some (.table h b)

/-- `line.trim().startsWith('|')`. -/
def isTableLine (l : List Char) : Bool := startsWithL (trimChars l) ['|']

/-- `line.trim().startsWith('```' + "")`, i.e. the fence test. -/
def isFenceLine (l : List Char) : Bool := startsWithL (trimChars l) ['`', '`', '`']

/-- The shape `/^[-*•]\s/` on an already-trimmed line. -/
def bulletShape : List Char → Bool
  | m :: s :: _ => (m = '-' || m = '*' || m = '•') && ws s
  | _ => false

/-- `line.trim().match(/^[-*•]\s/)`. -/
def isBulletLine (l : List Char) : Bool := bulletShape (trimChars l)

/-- The shape `/^\d+[.)]\s/` on an already-trimmed line: digits (greedy),
a dot or closing parenthesis, a whitespace character. -/
def numShape (t : List Char) : Bool :=
  !(t.takeWhile Char.isDigit).isEmpty &&
    match t.dropWhile Char.isDigit with
    | p :: s :: _ => (p = '.' || p = ')') && ws s
    | _ => false

/-- `line.trim().match(/^\d+[.)]\s/)`. -/
def isNumLine (l : List Char) : Bool := numShape (trimChars l)

/-- `lines[i].trim().replace(/^[-*•]\s/, '')`: the match is two characters. -/
def stripBullet (l : List Char) : List Char := (trimChars l).drop 2

/-- `lines[i].trim().replace(/^\d+[.)]\s/, '')`: the match is the digit run
plus two characters. -/
def stripNum (l : List Char) : List Char :=
  (trimChars l).drop (((trimChars l).takeWhile Char.isDigit).length + 2)

/-- The body of `renderMarkdown`'s `while (i < lines.length)` loop, with an
explicit iteration bound.  Every iteration consumes at least one line, so a
bound of `lines.length` iterations is always sufficient (proved as
`renderGo_fuel`).  The branches appear in the source's precedence order:
table, code fence, `### `, `## `, `# `, bullet list, numbered list, blank
line, paragraph. -/
def renderGo : Nat → List (List Char) → List Block
  | 0, _ => []
  | _, [] => []
  | fuel + 1, line :: restLines =>
    if isTableLine line then
      let tl := (line :: restLines).takeWhile isTableLine
      let after := (line :: restLines).dropWhile isTableLine
      if 2 ≤ tl.length then
        (match renderTable tl with
         | some b => b
         | none => Block.nullB) :: renderGo fuel after
      else renderGo fuel after
    else if isFenceLine line then
      let codeLines := restLines.takeWhile (fun l => !isFenceLine l)
      let after := (restLines.dropWhile (fun l => !isFenceLine l)).drop 1
      Block.codeBlock (joinLines codeLines) :: renderGo fuel after
    else if startsWithL line ['#', '#', '#', ' '] then
      Block.heading 3 (line.drop 4) :: renderGo fuel restLines
    else if startsWithL line ['#', '#', ' '] then
      Block.heading 2 (line.drop 3) :: renderGo fuel restLines
    else if startsWithL line ['#', ' '] then
      Block.heading 1 (line.drop 2) :: renderGo fuel restLines
    else if isBulletLine line then
      Block.bulletList (((line :: restLines).takeWhile isBulletLine).map stripBullet) ::
        renderGo fuel ((line :: restLines).dropWhile isBulletLine)
    else if isNumLine line then
      Block.numberedList (((line :: restLines).takeWhile isNumLine).map stripNum) ::
        renderGo fuel ((line :: restLines).dropWhile isNumLine)
    else if (trimChars line).isEmpty then
      Block.brk :: renderGo fuel restLines
    else
      Block.para line :: renderGo fuel restLines

/-- The block-segmentation loop at its sufficient iteration bound. -/
def renderLines (lines : List (List Char)) : List Block :=
  renderGo lines.length lines

/-- `renderMarkdown(text)`: split on newlines, run the segmentation loop. -/
def renderMarkdown (text : List Char) : List Block :=
  renderLines (splitOnChar '\n' text)

/-- The component entry: `if (!content) return null` (both `null` and the
empty string are falsy), otherwise render. -/
def MarkdownRenderer : Option (List Char) → List Block
  | none => []
  | some s => if s.isEmpty then [] else renderMarkdown s

/-! Trivial re-serialization of a block sequence, and the well-formedness
predicate under which re-segmenting the serialized text reproduces the
blocks.  The serialization follows the spec's reading (headings back to
`# text`, bullet items back to `- item` lines, and so on); well-formedness
rules out exactly the shapes whose serialization is re-read differently
(block text containing newlines, untrimmed cells, cells containing `|`,
items with trailing whitespace, a row whose serialization looks like a
separator row, a table without a body row, adjacent blocks of the same
line-consuming kind, and the `null` table element). -/

/-- Trailing-whitespace trim (to state that a list item carries no trailing
whitespace, which the marker-stripping of the source would otherwise lose). -/
def trimRightChars (l : List Char) : List Char := (l.reverse.dropWhile ws).reverse

/-- The text contains no newline, so it serializes to a single line. -/
def noNl (l : List Char) : Bool := l.all (fun c => c ≠ '\n')

/-- Serialize one table row back to `| c1 | c2 | ... |`. -/
def serRow (row : List (List Char)) : List Char :=
  '|' :: (row.map (fun cell => ' ' :: (cell ++ [' ', '|']))).flatten

/-- Serialize one block back to its source lines. -/
def serBlockLines : Block → List (List Char)
  | .para t => [t]
  | .heading l t => [List.replicate l '#' ++ ' ' :: t]
  | .bulletList items => items.map (fun it => '-' :: ' ' :: it)
  | .numberedList items => items.map (fun it => '1' :: '.' :: ' ' :: it)
  | .codeBlock content =>
      ['`', '`', '`'] :: (splitOnChar '\n' content ++ [['`', '`', '`']])
  | .table h b => (h :: b).map serRow
  | .brk => [[]]
  | .nullB => []

/-- Serialize a block sequence back to a single text. -/
def serialize (bs : List Block) : List Char :=
  joinLines ((bs.map serBlockLines).flatten)

/-- A list item whose serialized line `- item` is read back unchanged. -/
def itemOk (it : List Char) : Bool :=
  !it.isEmpty && noNl it && trimRightChars it == it

/-- A table cell whose serialized form ` cell ` trims back to itself. -/
def cellOk (c : List Char) : Bool :=
  noNl c && c.all (fun x => x ≠ '|') && trimChars c == c

/-- A table row that serializes to a line read back as the same data row. -/
def rowOk (row : List (List Char)) : Bool :=
  !row.isEmpty && row.all cellOk && !isSepRow (trimChars (serRow row))

/-- A paragraph line that no earlier matcher of the segmentation loop
captures. -/
def paraOk (t : List Char) : Bool :=
  noNl t && !isTableLine t && !isFenceLine t &&
  !startsWithL t ['#', '#', '#', ' '] && !startsWithL t ['#', '#', ' '] &&
  !startsWithL t ['#', ' '] &&
  !isBulletLine t && !isNumLine t && !(trimChars t).isEmpty

/-- Well-formedness of a single block. -/
def wfBlock : Block → Bool
  | .para t => paraOk t
  | .heading l t => (l == 1 || l == 2 || l == 3) && noNl t
  | .bulletList items => !items.isEmpty && items.all itemOk
  | .numberedList items => !items.isEmpty && items.all itemOk
  | .codeBlock content => (splitOnChar '\n' content).all (fun l => !isFenceLine l)
  | .table h b => !b.isEmpty && (h :: b).all rowOk
  | .brk => true
  | .nullB => false

/-- Two adjacent blocks of the same run-consuming kind would be merged by
re-segmentation. -/
def sameRunKind : Block → Block → Bool
  | .bulletList _, .bulletList _ => true
  | .numberedList _, .numberedList _ => true
  | .table _ _, .table _ _ => true
  | _, _ => false

/-- Well-formedness of a block sequence. -/
def wfBlocks : List Block → Bool
  | [] => false
  | [b] => wfBlock b
  | b1 :: b2 :: bs => wfBlock b1 && !sameRunKind b1 b2 && wfBlocks (b2 :: bs)

/-! Helper lemmas: list facts, loop-bound sufficiency. -/

theorem dropWhile_len_le {α : Type} (p : α → Bool) (l : List α) :
    (l.dropWhile p).length ≤ l.length := by
  induction l with
  | nil => simp
  | cons x xs ih =>
    by_cases h : p x
    · simp only [List.dropWhile_cons, h, if_true]
      exact Nat.le_trans ih (Nat.le_succ _)
    · simp [List.dropWhile_cons, h]

theorem tryCode_length {l content rest : List Char}
    (h : tryCode l = some (content, rest)) : rest.length < l.length := by
  match l with
  | [] => simp [tryCode] at h
  | c :: cs =>
    simp only [tryCode] at h
    split at h
    · split at h
      · exact absurd h (by simp)
      · split at h
        · rename_i rest2 heq
          have hle := dropWhile_len_le (fun x => x ≠ '`') cs
          rw [heq] at hle
          simp only [Option.some.injEq, Prod.mk.injEq] at h
          obtain ⟨-, h2⟩ := h
          subst h2
          simp only [List.length_cons] at hle ⊢
          omega
        · exact absurd h (by simp)
    · exact absurd h (by simp)

theorem tryBold_length {l content rest : List Char}
    (h : tryBold l = some (content, rest)) : rest.length < l.length := by
  match l with
  | [] => simp [tryBold] at h
  | [c] => simp [tryBold] at h
  | c1 :: c2 :: cs =>
    simp only [tryBold] at h
    split at h
    · split at h
      · exact absurd h (by simp)
      · split at h
        · rename_i rest2 heq
          have hle := dropWhile_len_le (fun x => x ≠ '*') cs
          rw [heq] at hle
          simp only [Option.some.injEq, Prod.mk.injEq] at h
          obtain ⟨-, h2⟩ := h
          subst h2
          simp only [List.length_cons] at hle ⊢
          omega
        · exact absurd h (by simp)
    · exact absurd h (by simp)

theorem tryItalic_length {l content rest : List Char}
    (h : tryItalic l = some (content, rest)) : rest.length < l.length := by
  match l with
  | [] => simp [tryItalic] at h
  | c :: cs =>
    simp only [tryItalic] at h
    split at h
    · split at h
      · exact absurd h (by simp)
      · split at h
        · rename_i rest2 heq
          have hle := dropWhile_len_le (fun x => x ≠ '*') cs
          rw [heq] at hle
          simp only [Option.some.injEq, Prod.mk.injEq] at h
          obtain ⟨-, h2⟩ := h
          subst h2
          simp only [List.length_cons] at hle ⊢
          omega
        · exact absurd h (by simp)
    · exact absurd h (by simp)

theorem scanGo_nil (f : Nat) : scanGo f [] = [] := by
  cases f <;> rfl

theorem scanGo_congr :
    ∀ (n f1 f2 : Nat) (l : List Char), l.length ≤ n → l.length ≤ f1 →
      l.length ≤ f2 → scanGo f1 l = scanGo f2 l := by
  intro n
  induction n with
  | zero =>
    intro f1 f2 l hn _ _
    have : l = [] := List.eq_nil_of_length_eq_zero (Nat.le_zero.mp hn)
    subst this
    rw [scanGo_nil, scanGo_nil]
  | succ n ih =>
    intro f1 f2 l hn h1 h2
    match l with
    | [] => rw [scanGo_nil, scanGo_nil]
    | c :: cs =>
      simp only [List.length_cons] at hn h1 h2
      match f1, f2 with
      | a + 1, b + 1 =>
        simp only [scanGo]
        rcases htc : tryCode (c :: cs) with - | ⟨content, rest⟩
        · rcases htb : tryBold (c :: cs) with - | ⟨content, rest⟩
          · rcases hti : tryItalic (c :: cs) with - | ⟨content, rest⟩
            · rcases hfs : findSpecialIdx (c :: cs) with - | (- | m)
              · rfl
              · have := ih a b cs (by omega) (by omega) (by omega)
                simp only [this]
              · have hlen : ((c :: cs).drop (m + 1)).length ≤ cs.length := by
                  simp only [List.length_drop, List.length_cons]
                  omega
                have := ih a b ((c :: cs).drop (m + 1)) (by omega) (by omega) (by omega)
                simp only [this]
            · have hr := tryItalic_length hti
              simp only [List.length_cons] at hr
              have := ih a b rest (by omega) (by omega) (by omega)
              simp only [this]
          · have hr := tryBold_length htb
            simp only [List.length_cons] at hr
            have := ih a b rest (by omega) (by omega) (by omega)
            simp only [this]
        · have hr := tryCode_length htc
          simp only [List.length_cons] at hr
          have := ih a b rest (by omega) (by omega) (by omega)
          simp only [this]

theorem scanGo_fuel {f : Nat} {l : List Char} (h : l.length ≤ f) :
    scanGo f l = scanInline l :=
  scanGo_congr l.length f l.length l le_rfl h le_rfl

theorem renderGo_nil (f : Nat) : renderGo f [] = [] := by
  cases f <;> rfl

theorem renderGo_congr :
    ∀ (n f1 f2 : Nat) (L : List (List Char)), L.length ≤ n → L.length ≤ f1 →
      L.length ≤ f2 → renderGo f1 L = renderGo f2 L := by
  intro n
  induction n with
  | zero =>
    intro f1 f2 L hn _ _
    have : L = [] := List.eq_nil_of_length_eq_zero (Nat.le_zero.mp hn)
    subst this
    rw [renderGo_nil, renderGo_nil]
  | succ n ih =>
    intro f1 f2 L hn h1 h2
    match L with
    | [] => rw [renderGo_nil, renderGo_nil]
    | line :: rest =>
      simp only [List.length_cons] at hn h1 h2
      match f1, f2 with
      | a + 1, b + 1 =>
        simp only [renderGo]
        by_cases ht : isTableLine line = true
        · rw [if_pos ht, if_pos ht]
          have hdw : ((line :: rest).dropWhile isTableLine).length ≤ rest.length := by
            rw [List.dropWhile_cons, if_pos ht]
            exact dropWhile_len_le _ _
          have hrec := ih a b ((line :: rest).dropWhile isTableLine)
            (by omega) (by omega) (by omega)
          by_cases hl2 : 2 ≤ ((line :: rest).takeWhile isTableLine).length
          · rw [if_pos hl2, if_pos hl2, hrec]
          · rw [if_neg hl2, if_neg hl2, hrec]
        · rw [if_neg ht, if_neg ht]
          by_cases hf : isFenceLine line = true
          · rw [if_pos hf, if_pos hf]
            have hdw :
                ((rest.dropWhile (fun l => !isFenceLine l)).drop 1).length ≤ rest.length := by
              have := dropWhile_len_le (fun l => !isFenceLine l) rest
              simp only [List.length_drop]
              omega
            rw [ih a b ((rest.dropWhile (fun l => !isFenceLine l)).drop 1)
              (by omega) (by omega) (by omega)]
          · rw [if_neg hf, if_neg hf]
            by_cases h3 : startsWithL line ['#', '#', '#', ' '] = true
            · rw [if_pos h3, if_pos h3, ih a b rest (by omega) (by omega) (by omega)]
            · rw [if_neg h3, if_neg h3]
              by_cases h4 : startsWithL line ['#', '#', ' '] = true
              · rw [if_pos h4, if_pos h4, ih a b rest (by omega) (by omega) (by omega)]
              · rw [if_neg h4, if_neg h4]
                by_cases h5 : startsWithL line ['#', ' '] = true
                · rw [if_pos h5, if_pos h5, ih a b rest (by omega) (by omega) (by omega)]
                · rw [if_neg h5, if_neg h5]
                  by_cases h6 : isBulletLine line = true
                  · rw [if_pos h6, if_pos h6]
                    have hdw : ((line :: rest).dropWhile isBulletLine).length ≤ rest.length := by
                      rw [List.dropWhile_cons, if_pos h6]
                      exact dropWhile_len_le _ _
                    rw [ih a b ((line :: rest).dropWhile isBulletLine)
                      (by omega) (by omega) (by omega)]
                  · rw [if_neg h6, if_neg h6]
                    by_cases h7 : isNumLine line = true
                    · rw [if_pos h7, if_pos h7]
                      have hdw : ((line :: rest).dropWhile isNumLine).length ≤ rest.length := by
                        rw [List.dropWhile_cons, if_pos h7]
                        exact dropWhile_len_le _ _
                      rw [ih a b ((line :: rest).dropWhile isNumLine)
                        (by omega) (by omega) (by omega)]
                    · rw [if_neg h7, if_neg h7]
                      by_cases h8 : (trimChars line).isEmpty = true
                      · rw [if_pos h8, if_pos h8,
                          ih a b rest (by omega) (by omega) (by omega)]
                      · rw [if_neg h8, if_neg h8,
                          ih a b rest (by omega) (by omega) (by omega)]

theorem renderGo_fuel {f : Nat} {L : List (List Char)} (h : L.length ≤ f) :
    renderGo f L = renderLines L :=
  renderGo_congr L.length f L.length L le_rfl h le_rfl

theorem startsWithL_elim {l ps : List Char} {p : Char}
    (h : startsWithL l (p :: ps) = true) : ∃ t, l = p :: t ∧ startsWithL t ps = true := by
  match l with
  | [] => simp [startsWithL] at h
  | c :: cs =>
    simp only [startsWithL, Bool.and_eq_true, decide_eq_true_eq] at h
    exact ⟨cs, by rw [h.1], h.2⟩

theorem takeWhile_eq_self_of_all {α : Type} (p : α → Bool) (l : List α)
    (h : ∀ a ∈ l, p a = true) : l.takeWhile p = l := by
  induction l with
  | nil => rfl
  | cons x xs ih =>
    rw [List.takeWhile_cons, if_pos (h x (List.mem_cons_self x xs))]
    rw [ih (fun a ha => h a (List.mem_cons_of_mem x ha))]

theorem dropWhile_eq_nil_of_all {α : Type} (p : α → Bool) (l : List α)
    (h : ∀ a ∈ l, p a = true) : l.dropWhile p = [] := by
  induction l with
  | nil => rfl
  | cons x xs ih =>
    rw [List.dropWhile_cons, if_pos (h x (List.mem_cons_self x xs))]
    exact ih (fun a ha => h a (List.mem_cons_of_mem x ha))

theorem takeWhile_append_stop {α : Type} (p : α → Bool) (pre post : List α) (x : α)
    (hpre : ∀ a ∈ pre, p a = true) (hx : p x = false) :
    (pre ++ x :: post).takeWhile p = pre := by
  induction pre with
  | nil => simp [List.takeWhile_cons, hx]
  | cons y ys ih =>
    rw [List.cons_append, List.takeWhile_cons, if_pos (hpre y (List.mem_cons_self y ys))]
    rw [ih (fun a ha => hpre a (List.mem_cons_of_mem y ha))]

theorem dropWhile_append_stop {α : Type} (p : α → Bool) (pre post : List α) (x : α)
    (hpre : ∀ a ∈ pre, p a = true) (hx : p x = false) :
    (pre ++ x :: post).dropWhile p = x :: post := by
  induction pre with
  | nil => simp [List.dropWhile_cons, hx]
  | cons y ys ih =>
    rw [List.cons_append, List.dropWhile_cons, if_pos (hpre y (List.mem_cons_self y ys))]
    exact ih (fun a ha => hpre a (List.mem_cons_of_mem y ha))

theorem splitOnChar_ne_nil (sep : Char) (l : List Char) : splitOnChar sep l ≠ [] := by
  match l with
  | [] => simp [splitOnChar]
  | c :: cs =>
    by_cases h : c = sep
    · simp [splitOnChar, h]
    · simp only [splitOnChar, if_neg h]
      split
      · simp
      · simp

theorem splitOnChar_concat (sep : Char) (l : List Char) :
    splitOnChar sep (l ++ [sep]) = splitOnChar sep l ++ [[]] := by
  induction l with
  | nil => simp [splitOnChar]
  | cons c cs ih =>
    by_cases h : c = sep
    · simp only [List.cons_append, splitOnChar, if_pos h, List.append_eq, ih]
    · rcases hs : splitOnChar sep cs with - | ⟨piece, pieces⟩
      · exact absurd hs (splitOnChar_ne_nil sep cs)
      · simp only [List.cons_append, splitOnChar, if_neg h, List.append_eq, ih, hs]

theorem isSepRow_iff (t : List Char) :
    isSepRow t = true ↔
      ∃ mid : List Char, t = '|' :: (mid ++ ['|']) ∧ mid ≠ [] ∧ mid.all sepClass = true := by
  match t with
  | [] =>
    simp only [isSepRow, Bool.false_eq_true, false_iff]
    rintro ⟨mid, h, -, -⟩
    exact absurd h (by simp)
  | c :: rest =>
    simp only [isSepRow, Bool.and_eq_true, decide_eq_true_eq]
    constructor
    · rintro ⟨⟨⟨hc, hlen⟩, hlast⟩, hall⟩
      subst hc
      have hne : rest ≠ [] := by
        intro h
        subst h
        simp at hlen
      refine ⟨rest.dropLast, ?_, ?_, hall⟩
      · have h2 := List.dropLast_append_getLast? '|' (Option.mem_def.mpr hlast)
        rw [h2]
      · intro h
        have : rest.dropLast.length = 0 := by rw [h]; rfl
        rw [List.length_dropLast] at this
        omega
    · rintro ⟨mid, heq, hne, hall⟩
      have hc : c = '|' ∧ rest = mid ++ ['|'] := by
        injection heq with h1 h2
        exact ⟨h1, h2⟩
      obtain ⟨hc, hrest⟩ := hc
      subst hc
      subst hrest
      refine ⟨⟨⟨rfl, ?_⟩, ?_⟩, ?_⟩
      · simp only [List.length_append, List.length_cons, List.length_nil]
        have : 1 ≤ mid.length := List.length_pos.mpr hne
        omega
      · exact List.getLast?_concat mid
      · rw [List.dropLast_concat]
        exact hall

/-! Claim theorems. -/

/-- Claim C1: for every input (any string, empty, or null) rendering is total
and returns a (possibly empty) block sequence; both the block-segmentation
loop and the inline-scanning loop terminate on all inputs — an iteration
bound equal to the number of lines (resp. characters) is always sufficient,
and the result does not depend on the bound beyond that.  No branch of the
embedding is partial, so no branch raises an error. -/
theorem renderer_total (content : Option (List Char)) :
    (∃ bs : List Block, MarkdownRenderer content = bs)
    ∧ (∀ (f : Nat) (L : List (List Char)), L.length ≤ f → renderGo f L = renderLines L)
    ∧ (∀ (f : Nat) (t : List Char), t.length ≤ f → scanGo f t = scanInline t) :=
  ⟨⟨_, rfl⟩, fun _ _ h => renderGo_fuel h, fun _ _ h => scanGo_fuel h⟩

/-- Witness for C1 at a concrete input: a larger-than-necessary iteration
bound gives the same result as the canonical one. -/
theorem renderer_total_wit :
    renderGo 7 [('#' :: ' ' :: ['h', 'i'])] = renderLines [('#' :: ' ' :: ['h', 'i'])] :=
  (renderer_total none).2.1 7 [('#' :: ' ' :: ['h', 'i'])] (by decide)

/-- Claim C6: rendering the empty string and rendering null both produce the
empty block sequence, not an error. -/
theorem render_empty_and_null :
    MarkdownRenderer none = [] ∧ MarkdownRenderer (some []) = [] :=
  ⟨rfl, rfl⟩

/-- Claim C7: inline rendering of `**bold** and *italic* and `code``
yields exactly Bold, PlainText, Italic, PlainText, InlineCode in
left-to-right order. -/
theorem inline_example_spans :
    renderInline ("**bold** and *italic* and `code`".toList)
      = [Inline.bold ("bold".toList), Inline.text (" and ".toList),
         Inline.italic ("italic".toList), Inline.text (" and ".toList),
         Inline.code ("code".toList)] := by
  decide

/-- Claim C2, counterexample: the consumed table `["| A |", "||"]` contains
the row `||`, whose trimmed content is composed only of the characters
`-`, `:`, `|` and whitespace, yet the separator test rejects it (the pattern
needs at least one class character strictly between the two pipes), so it is
rendered as a data row (one empty cell) instead of being discarded. -/
theorem table_sep_rows_cex :
    (trimChars ("||".toList)).all sepClass = true
    ∧ isSepRow (trimChars ("||".toList)) = false
    ∧ renderTable [("| A |".toList), ("||".toList)]
        = some (Block.table [("A".toList)] [[[]]]) := by
  decide

/-- Claim C2 (amended): a consumed table row is discarded exactly when its
trimmed content starts with `|`, ends with `|`, and has at least one
character strictly between them, all of the dropped row's characters drawn
from `-`, `:`, `|`, whitespace; the remaining rows are the data, the first
of them the header and the rest the body. -/
theorem table_sep_rows (tableLines : List (List Char)) :
    tableRows tableLines
      = (tableLines.filter (fun l => !isSepRow (trimChars l))).map rowCells
    ∧ (∀ t : List Char, isSepRow t = true ↔
        ∃ mid : List Char, t = '|' :: (mid ++ ['|']) ∧ mid ≠ [] ∧ mid.all sepClass = true)
    ∧ renderTable tableLines
        = (match tableRows tableLines with
           | [] => none
           | h :: b => some (Block.table h b)) :=
  ⟨rfl, fun t => isSepRow_iff t, rfl⟩

/-- Witness for C2: the row `|-|` (pipe, one class character, pipe) is
recognized as a separator. -/
theorem table_sep_rows_wit :
    isSepRow ("|-|".toList) = true :=
  ((table_sep_rows []).2.1 ("|-|".toList)).mpr ⟨['-'], by decide, by decide, by decide⟩

/-- Claim C3, counterexample: the non-separator table row `| A | B` (no
trailing pipe) splits into segments `["", " A ", " B"]`; the dropped last
segment is `" B"`, which is not empty, and the cell content `B` is lost —
the row renders with the single cell `A`. -/
theorem row_cells_split_cex :
    isSepRow (trimChars ("| A | B".toList)) = false
    ∧ (splitOnChar '|' ("| A | B".toList)).getLast? = some (" B".toList)
    ∧ (" B".toList ≠ ([] : List Char))
    ∧ rowCells ("| A | B".toList) = [("A".toList)] := by
  decide

/-- Claim C3 (amended): cells of a table row are the split-on-`|` segments
with the first and last segment dropped; when the raw row literally starts
and ends with `|`, the two dropped segments are the empty strings outside
the leading/trailing pipe, so no non-empty content is lost — but a row with
leading text before the first pipe or without a trailing pipe loses the
dropped segment's content. -/
theorem row_cells_split (line : List Char) :
    rowCells line = (((splitOnChar '|' line).drop 1).dropLast).map trimChars
    ∧ (∀ mid : List Char, line = '|' :: (mid ++ ['|']) →
        (splitOnChar '|' line).head? = some []
        ∧ (splitOnChar '|' line).getLast? = some []) := by
  refine ⟨rfl, ?_⟩
  rintro mid rfl
  constructor
  · simp [splitOnChar]
  · have h1 : splitOnChar '|' ('|' :: (mid ++ ['|']))
        = [] :: (splitOnChar '|' mid ++ [[]]) := by
      simp [splitOnChar, splitOnChar_concat]
    rw [h1, show ([] :: (splitOnChar '|' mid ++ [[]]))
        = (([] :: splitOnChar '|' mid) ++ [[]]) from rfl]
    exact List.getLast?_concat _

/-- Witness for C3 at a concrete row: for `| A |` both dropped segments are
empty. -/
theorem row_cells_split_wit :
    (splitOnChar '|' ("| A |".toList)).head? = some []
    ∧ (splitOnChar '|' ("| A |".toList)).getLast? = some [] :=
  (row_cells_split ("| A |".toList)).2 (" A ".toList) (by decide)

/-- Claim C8: a special character (backtick or asterisk) at the current scan
position with no matching closer (none of the three delimiter matches
succeed there) is emitted literally as a single one-character PlainText span
and the scan advances past exactly that character, continuing on the rest. -/
theorem lone_special_literal (c : Char) (cs : List Char)
    (hs : isSpecial c = true)
    (h1 : tryCode (c :: cs) = none) (h2 : tryBold (c :: cs) = none)
    (h3 : tryItalic (c :: cs) = none) :
    scanInline (c :: cs) = Inline.text [c] :: scanInline cs := by
  show scanGo (c :: cs).length (c :: cs) = _
  simp only [List.length_cons, scanGo, h1, h2, h3]
  have hfs : findSpecialIdx (c :: cs) = some 0 := by
    simp [findSpecialIdx, hs]
  simp only [hfs]
  rw [scanGo_fuel le_rfl]

/-- Witness for C8: a lone backtick before `ab` becomes the one-character
PlainText `` ` `` followed by the scan of `ab`. -/
theorem lone_special_literal_wit :
    scanInline ('`' :: ['a', 'b']) = Inline.text ['`'] :: scanInline ['a', 'b'] :=
  lone_special_literal '`' ['a', 'b'] (by decide) (by decide) (by decide) (by decide)

/-- Claim C5: a maximal run of `|`-starting lines of length 1 is consumed
without emitting any node: the segmentation of a lone table line followed by
a non-table continuation is the segmentation of the continuation alone. -/
theorem lone_table_line_dropped (line : List Char) (rest : List (List Char))
    (h1 : isTableLine line = true)
    (h2 : ∀ l, rest.head? = some l → isTableLine l = false) :
    renderLines (line :: rest) = renderLines rest := by
  show renderGo (line :: rest).length (line :: rest) = _
  simp only [List.length_cons, renderGo]
  rw [if_pos h1]
  have htw : (line :: rest).takeWhile isTableLine = [line] := by
    rw [List.takeWhile_cons, if_pos h1]
    cases rest with
    | nil => rfl
    | cons r rs =>
      rw [List.takeWhile_cons, if_neg (by simp [h2 r rfl])]
  have hdw : (line :: rest).dropWhile isTableLine = rest := by
    rw [List.dropWhile_cons, if_pos h1]
    cases rest with
    | nil => rfl
    | cons r rs =>
      rw [List.dropWhile_cons, if_neg (by simp [h2 r rfl])]
  rw [htw, hdw, if_neg (by simp)]
  exact renderGo_fuel le_rfl

/-- Witness for C5: the document consisting of the single line `| only |`
renders to no blocks at all. -/
theorem lone_table_line_dropped_wit :
    renderLines [("| only |".toList)] = [] := by
  have h := lone_table_line_dropped ("| only |".toList) []
    (by decide) (fun l hl => by simp at hl)
  simpa using h

theorem not_table_of_fence {l : List Char} (hf : isFenceLine l = true) :
    isTableLine l = false := by
  obtain ⟨t, ht, -⟩ := startsWithL_elim hf
  unfold isTableLine
  rw [ht]
  rfl

/-- Claim C4: a fenced code block with no closing fence consumes all
remaining lines into exactly one CodeBlock whose content is the joined
interior lines, with no trailing fence artifact; with a closer present, the
interior stops before the closer, the cursor advances past the closer line,
and the closer is not part of the content. -/
theorem code_fence_blocks (fenceLine : List Char) (rest pre post : List (List Char))
    (closer : List Char) (hf : isFenceLine fenceLine = true) :
    ((∀ l ∈ rest, isFenceLine l = false) →
      renderLines (fenceLine :: rest) = [Block.codeBlock (joinLines rest)])
    ∧ ((∀ l ∈ pre, isFenceLine l = false) → isFenceLine closer = true →
      renderLines (fenceLine :: (pre ++ closer :: post))
        = Block.codeBlock (joinLines pre) :: renderLines post) := by
  have hnt := not_table_of_fence hf
  constructor
  · intro hall
    show renderGo (fenceLine :: rest).length (fenceLine :: rest) = _
    simp only [List.length_cons, renderGo]
    rw [if_neg (by simp [hnt]), if_pos hf]
    have htw : rest.takeWhile (fun l => !isFenceLine l) = rest :=
      takeWhile_eq_self_of_all _ _ (fun a ha => by simp [hall a ha])
    have hdw : rest.dropWhile (fun l => !isFenceLine l) = [] :=
      dropWhile_eq_nil_of_all _ _ (fun a ha => by simp [hall a ha])
    rw [htw, hdw]
    simp [renderGo_nil]
  · intro hall hcl
    show renderGo (fenceLine :: (pre ++ closer :: post)).length _ = _
    simp only [List.length_cons, renderGo]
    rw [if_neg (by simp [hnt]), if_pos hf]
    have htw := takeWhile_append_stop (fun l => !isFenceLine l) pre post closer
      (fun a ha => by simp [hall a ha]) (by simp [hcl])
    have hdw := dropWhile_append_stop (fun l => !isFenceLine l) pre post closer
      (fun a ha => by simp [hall a ha]) (by simp [hcl])
    rw [htw, hdw]
    simp only [List.drop_succ_cons, List.drop_zero]
    rw [renderGo_fuel (by simp [List.length_append]; omega)]

/-- Witness for C4: an unterminated fence before `code line` gives one
CodeBlock `code line`; a terminated fence around `a` followed by `x` gives
the CodeBlock `a` and then the paragraph `x`. -/
theorem code_fence_blocks_wit :
    renderLines [("```".toList), ("code line".toList)]
      = [Block.codeBlock ("code line".toList)] := by
  have h := (code_fence_blocks ("```".toList) [("code line".toList)] [] []
    ("```".toList) (by decide)).1 (by decide)
  simpa using h

/-- Claim C10: a heading marker preceded by any leading whitespace is not a
heading: the heading matchers test the raw line (unlike the table, fence,
bullet and numbered matchers, which trim first), so the line falls through
to the paragraph default. -/
theorem indented_heading_is_paragraph (c : Char) (cs : List Char)
    (rest : List (List Char)) (hws : ws c = true)
    (hmark : startsWithL (trimChars (c :: cs)) ['#', ' '] = true
      ∨ startsWithL (trimChars (c :: cs)) ['#', '#', ' '] = true
      ∨ startsWithL (trimChars (c :: cs)) ['#', '#', '#', ' '] = true) :
    renderLines ((c :: cs) :: rest) = Block.para (c :: cs) :: renderLines rest := by
  have htrim : ∃ t, trimChars (c :: cs) = '#' :: t := by
    rcases hmark with h | h | h
    · obtain ⟨t, ht, -⟩ := startsWithL_elim h
      exact ⟨t, ht⟩
    · obtain ⟨t, ht, -⟩ := startsWithL_elim h
      exact ⟨t, ht⟩
    · obtain ⟨t, ht, -⟩ := startsWithL_elim h
      exact ⟨t, ht⟩
  obtain ⟨t, ht⟩ := htrim
  have hcne : c ≠ '#' := by
    intro h
    rw [h] at hws
    exact absurd hws (by decide)
  have gmark : ∀ ps, startsWithL (c :: cs) ('#' :: ps) = false := by
    intro ps
    simp only [startsWithL]
    rw [decide_eq_false hcne]
    rfl
  have g1 : isTableLine (c :: cs) = false := by
    unfold isTableLine
    rw [ht]
    rfl
  have g2 : isFenceLine (c :: cs) = false := by
    unfold isFenceLine
    rw [ht]
    rfl
  have g6 : isBulletLine (c :: cs) = false := by
    unfold isBulletLine
    rw [ht]
    cases t <;> rfl
  have g7 : isNumLine (c :: cs) = false := by
    unfold isNumLine numShape
    rw [ht]
    rfl
  have g8 : (trimChars (c :: cs)).isEmpty = false := by
    rw [ht]
    rfl
  show renderGo ((c :: cs) :: rest).length _ = _
  simp only [List.length_cons, renderGo]
  rw [if_neg (by simp [g1]), if_neg (by simp [g2]), if_neg (by simp [gmark]),
    if_neg (by simp [gmark]), if_neg (by simp [gmark]), if_neg (by simp [g6]),
    if_neg (by simp [g7]), if_neg (by simp [g8])]
  rw [renderGo_fuel le_rfl]

/-- Witness for C10: the line with one leading space before `# Title` is a
paragraph (carrying the raw line), not a heading. -/
theorem indented_heading_is_paragraph_wit :
    renderLines [(' ' :: "# Title".toList)] = [Block.para (' ' :: "# Title".toList)] := by
  have h := indented_heading_is_paragraph ' ' ("# Title".toList) [] (by decide)
    (Or.inl (by decide))
  simpa using h

/-! Infrastructure for the re-serialization round trip (claim C9). -/

theorem bool_ne_true {b : Bool} (h : b = false) : ¬(b = true) := by
  rw [h]
  simp

theorem trimChars_eq (l : List Char) :
    trimChars l = trimRightChars (l.dropWhile ws) := rfl

theorem dropWhile_append_cons_nonp {α : Type} (p : α → Bool) (A B : List α) (x : α)
    (hx : p x = false) : (A ++ x :: B).dropWhile p = A.dropWhile p ++ x :: B := by
  induction A with
  | nil => simp [List.dropWhile_cons, hx]
  | cons a as ih =>
    by_cases ha : p a = true
    · rw [List.cons_append, List.dropWhile_cons, if_pos ha, ih,
        List.dropWhile_cons, if_pos ha]
    · rw [List.cons_append, List.dropWhile_cons, if_neg ha, List.dropWhile_cons,
        if_neg ha, List.cons_append]

theorem dropWhile_append_left_ne_nil {α : Type} (p : α → Bool) (A B : List α)
    (h : A.dropWhile p ≠ []) : (A ++ B).dropWhile p = A.dropWhile p ++ B := by
  induction A with
  | nil => exact absurd rfl h
  | cons a as ih =>
    by_cases ha : p a = true
    · rw [List.dropWhile_cons, if_pos ha] at h
      rw [List.cons_append, List.dropWhile_cons, if_pos ha, ih h,
        List.dropWhile_cons, if_pos ha]
    · rw [List.cons_append, List.dropWhile_cons, if_neg ha, List.dropWhile_cons,
        if_neg ha, List.cons_append]

theorem trim_cons_nonws {c : Char} (cs : List Char) (hc : ws c = false) :
    trimChars (c :: cs) = c :: trimRightChars cs := by
  rw [trimChars_eq, List.dropWhile_cons, if_neg (bool_ne_true hc)]
  unfold trimRightChars
  rw [show (c :: cs).reverse = cs.reverse ++ c :: [] by simp,
    dropWhile_append_cons_nonp ws cs.reverse [] c hc]
  simp

theorem trim_cons_ws {c : Char} (cs : List Char) (hc : ws c = true) :
    trimChars (c :: cs) = trimChars cs := by
  rw [trimChars_eq, trimChars_eq, List.dropWhile_cons, if_pos hc]

theorem trimRight_concat_ws {c : Char} (Z : List Char) (hc : ws c = true) :
    trimRightChars (Z ++ [c]) = trimRightChars Z := by
  unfold trimRightChars
  rw [List.reverse_append, List.reverse_cons, List.reverse_nil, List.nil_append,
    List.cons_append, List.nil_append, List.dropWhile_cons, if_pos hc]

theorem trimRight_eq_of_getLast {l : List Char}
    (h : ∀ c, l.getLast? = some c → ws c = false) : trimRightChars l = l := by
  unfold trimRightChars
  cases hl : l.reverse with
  | nil =>
    have : l = [] := by simpa using congrArg List.reverse hl
    subst this
    rfl
  | cons x xs =>
    have hx : l.getLast? = some x := by
      rw [← List.head?_reverse, hl]
      rfl
    rw [List.dropWhile_cons, if_neg (bool_ne_true (h x hx)), ← hl,
      List.reverse_reverse]

theorem getLast_nonws_of_trimRight {l : List Char} (ht : trimRightChars l = l) :
    ∀ c, l.getLast? = some c → ws c = false := by
  intro c hc
  by_contra hws
  have hws' : ws c = true := by
    cases h : ws c
    · exact absurd h hws
    · rfl
  cases hl : l.reverse with
  | nil =>
    have : l = [] := by simpa using congrArg List.reverse hl
    subst this
    simp at hc
  | cons x xs =>
    have hx : x = c := by
      have : l.getLast? = some x := by
        rw [← List.head?_reverse, hl]
        rfl
      rw [this] at hc
      exact (Option.some.injEq _ _ ▸ hc).symm ▸ rfl
    subst hx
    have hlen : (trimRightChars l).length ≤ xs.length := by
      unfold trimRightChars
      rw [hl, List.dropWhile_cons, if_pos hws']
      calc ((xs.dropWhile ws).reverse).length
          = (xs.dropWhile ws).length := List.length_reverse _
        _ ≤ xs.length := dropWhile_len_le ws xs
    rw [ht] at hlen
    have : l.length = xs.length + 1 := by
      rw [← List.length_reverse l, hl]
      rfl
    omega

theorem trim_pad (cell : List Char) (hc : trimChars cell = cell) :
    trimChars (' ' :: (cell ++ [' '])) = cell := by
  rw [trim_cons_ws _ (by decide)]
  rw [trimChars_eq]
  by_cases hall : cell.dropWhile ws = []
  · have hcell : cell = [] := by
      rw [← hc, trimChars_eq, hall]
      rfl
    subst hcell
    decide
  · rw [dropWhile_append_left_ne_nil ws cell [' '] hall,
      trimRight_concat_ws _ (by decide), ← trimChars_eq, hc]

theorem splitOnChar_append_cons (sep : Char) (A B : List Char)
    (hA : ∀ x ∈ A, x ≠ sep) :
    splitOnChar sep (A ++ sep :: B) = A :: splitOnChar sep B := by
  induction A with
  | nil => simp [splitOnChar]
  | cons a as ih =>
    have ha : a ≠ sep := hA a (List.mem_cons_self a as)
    rw [List.cons_append]
    simp only [splitOnChar, if_neg ha, List.append_eq]
    rw [ih (fun x hx => hA x (List.mem_cons_of_mem a hx))]

theorem splitOnChar_no_sep (sep : Char) (l : List Char)
    (h : ∀ x ∈ l, x ≠ sep) : splitOnChar sep l = [l] := by
  induction l with
  | nil => rfl
  | cons c cs ih =>
    have hc : c ≠ sep := h c (List.mem_cons_self c cs)
    simp only [splitOnChar, if_neg hc]
    rw [ih (fun x hx => h x (List.mem_cons_of_mem c hx))]

theorem splitOnChar_joinLines :
    ∀ L : List (List Char), L ≠ [] → (∀ l ∈ L, ∀ x ∈ l, x ≠ '\n') →
      splitOnChar '\n' (joinLines L) = L := by
  intro L
  induction L with
  | nil => intro h; exact absurd rfl h
  | cons l rest ih =>
    intro _ hnl
    cases rest with
    | nil =>
      show splitOnChar '\n' (joinLines [l]) = [l]
      exact splitOnChar_no_sep '\n' l (hnl l (List.mem_cons_self l []))
    | cons l2 rest2 =>
      show splitOnChar '\n' (l ++ '\n' :: joinLines (l2 :: rest2)) = _
      rw [splitOnChar_append_cons '\n' l _ (hnl l (List.mem_cons_self l _)),
        ih (by simp) (fun a ha x hx => hnl a (List.mem_cons_of_mem l ha) x hx)]

theorem joinLines_splitOnChar (s : List Char) :
    joinLines (splitOnChar '\n' s) = s := by
  induction s with
  | nil => rfl
  | cons c cs ih =>
    by_cases hc : c = '\n'
    · subst hc
      simp only [splitOnChar, if_pos rfl]
      rcases hs : splitOnChar '\n' cs with - | ⟨l, ls⟩
      · exact absurd hs (splitOnChar_ne_nil '\n' cs)
      · rw [hs] at ih
        show joinLines ([] :: l :: ls) = '\n' :: cs
        show [] ++ '\n' :: joinLines (l :: ls) = '\n' :: cs
        rw [List.nil_append, ih]
    · simp only [splitOnChar, if_neg hc]
      rcases hs : splitOnChar '\n' cs with - | ⟨l, ls⟩
      · exact absurd hs (splitOnChar_ne_nil '\n' cs)
      · rw [hs] at ih
        cases ls with
        | nil =>
          show joinLines [c :: l] = c :: cs
          show c :: l = c :: cs
          rw [show l = joinLines [l] from rfl, ih]
        | cons l2 ls2 =>
          show joinLines ((c :: l) :: l2 :: ls2) = c :: cs
          show (c :: l) ++ '\n' :: joinLines (l2 :: ls2) = c :: cs
          rw [List.cons_append, ← ih]
          rfl

theorem splitOnChar_pieces_ne (sep : Char) :
    ∀ s : List Char, ∀ piece ∈ splitOnChar sep s, ∀ x ∈ piece, x ≠ sep := by
  intro s
  induction s with
  | nil =>
    intro piece hp x hx
    simp only [splitOnChar, List.mem_singleton] at hp
    subst hp
    simp at hx
  | cons c cs ih =>
    intro piece hp x hx
    by_cases hc : c = sep
    · rw [show splitOnChar sep (c :: cs) = [] :: splitOnChar sep cs by
        simp [splitOnChar, hc]] at hp
      rcases List.mem_cons.mp hp with h | h
      · subst h; simp at hx
      · exact ih piece h x hx
    · rcases hs : splitOnChar sep cs with - | ⟨l, ls⟩
      · exact absurd hs (splitOnChar_ne_nil sep cs)
      · rw [show splitOnChar sep (c :: cs) = (c :: l) :: ls by
          simp [splitOnChar, hc, hs]] at hp
        rcases List.mem_cons.mp hp with h | h
        · subst h
          rcases List.mem_cons.mp hx with h | h
          · subst h; exact hc
          · exact ih l (by rw [hs]; exact List.mem_cons_self l ls) x h
        · exact ih piece (by rw [hs]; exact List.mem_cons_of_mem l h) x hx

theorem isTableLine_head {c : Char} (cs : List Char) (hc : ws c = false)
    (hne : c ≠ '|') : isTableLine (c :: cs) = false := by
  unfold isTableLine
  rw [trim_cons_nonws cs hc]
  simp only [startsWithL]
  rw [decide_eq_false hne]
  rfl

theorem isFenceLine_head {c : Char} (cs : List Char) (hc : ws c = false)
    (hne : c ≠ '`') : isFenceLine (c :: cs) = false := by
  unfold isFenceLine
  rw [trim_cons_nonws cs hc]
  simp only [startsWithL]
  rw [decide_eq_false hne]
  rfl

theorem isBulletLine_head {c : Char} (cs : List Char) (hc : ws c = false)
    (h1 : c ≠ '-') (h2 : c ≠ '*') (h3 : c ≠ '•') : isBulletLine (c :: cs) = false := by
  unfold isBulletLine
  rw [trim_cons_nonws cs hc]
  cases trimRightChars cs with
  | nil => rfl
  | cons s t =>
    show ((c = '-' || c = '*' || c = '•') && ws s) = false
    rw [decide_eq_false h1, decide_eq_false h2, decide_eq_false h3]
    rfl

theorem isNumLine_head {c : Char} (cs : List Char) (hc : ws c = false)
    (hnd : c.isDigit = false) : isNumLine (c :: cs) = false := by
  unfold isNumLine numShape
  rw [trim_cons_nonws cs hc, List.takeWhile_cons, if_neg (bool_ne_true hnd)]
  rfl

theorem startsWithL_head_ne {c : Char} (cs ps : List Char) {p : Char}
    (hne : c ≠ p) : startsWithL (c :: cs) (p :: ps) = false := by
  simp only [startsWithL]
  rw [decide_eq_false hne]
  rfl

/-- The flattened cell segments of a nonempty serialized row end with the
closing pipe. -/
theorem serRow_shape (row : List (List Char)) (hne : row ≠ []) :
    ∃ Y : List Char, serRow row = '|' :: (Y ++ ['|']) := by
  unfold serRow
  induction row with
  | nil => exact absurd rfl hne
  | cons cell rest ih =>
    cases rest with
    | nil =>
      refine ⟨' ' :: (cell ++ [' ']), ?_⟩
      simp
    | cons c2 r2 =>
      obtain ⟨Y, hY⟩ := ih (by simp)
      have hY' : ((c2 :: r2).map (fun cell => ' ' :: (cell ++ [' ', '|']))).flatten
          = Y ++ ['|'] := by
        have := hY
        simp only [List.cons.injEq] at this
        exact this.2
      refine ⟨' ' :: (cell ++ [' ', '|']) ++ Y, ?_⟩
      simp only [List.map_cons, List.flatten_cons, hY']
      simpa using hY'

theorem serRow_trim (row : List (List Char)) (hne : row ≠ []) :
    trimChars (serRow row) = serRow row := by
  obtain ⟨Y, hY⟩ := serRow_shape row hne
  rw [hY, trim_cons_nonws _ (by decide)]
  congr 1
  apply trimRight_eq_of_getLast
  intro c hc
  rw [List.getLast?_concat] at hc
  have : c = '|' := by
    injection hc with h
    exact h.symm
  subst this
  decide

theorem serRow_isTable (row : List (List Char)) (hne : row ≠ []) :
    isTableLine (serRow row) = true := by
  unfold isTableLine
  rw [serRow_trim row hne]
  obtain ⟨Y, hY⟩ := serRow_shape row hne
  rw [hY]
  simp only [startsWithL]
  decide

/-- Splitting the flattened cell segments on `|` recovers one padded piece
per cell plus the final empty piece. -/
theorem serRow_split (row : List (List Char))
    (hcells : ∀ cell ∈ row, ∀ x ∈ cell, x ≠ '|') :
    splitOnChar '|' ((row.map (fun cell => ' ' :: (cell ++ [' ', '|']))).flatten)
      = row.map (fun cell => ' ' :: (cell ++ [' '])) ++ [[]] := by
  induction row with
  | nil => rfl
  | cons cell rest ih =>
    simp only [List.map_cons, List.flatten_cons]
    have hassoc : (' ' :: (cell ++ [' ', '|'])) ++
        ((rest.map (fun cell => ' ' :: (cell ++ [' ', '|']))).flatten)
        = (' ' :: (cell ++ [' '])) ++ '|' ::
          ((rest.map (fun cell => ' ' :: (cell ++ [' ', '|']))).flatten) := by
      simp
    rw [hassoc, splitOnChar_append_cons '|' _ _ ?hfree,
      ih (fun c hc x hx => hcells c (List.mem_cons_of_mem cell hc) x hx)]
    · simp
    case hfree =>
      intro x hx
      rcases List.mem_cons.mp hx with h | h
      · subst h; decide
      · rcases List.mem_append.mp h with h | h
        · exact hcells cell (List.mem_cons_self cell rest) x h
        · rcases List.mem_singleton.mp h with rfl
          decide

theorem serRow_cells (row : List (List Char)) (hok : ∀ cell ∈ row, cellOk cell = true) :
    rowCells (serRow row) = row := by
  have hfree : ∀ cell ∈ row, ∀ x ∈ cell, x ≠ '|' := by
    intro cell hc x hx
    have := hok cell hc
    unfold cellOk at this
    simp only [Bool.and_eq_true] at this
    have h2 := this.1.2
    rw [List.all_eq_true] at h2
    simpa using h2 x hx
  unfold rowCells serRow
  rw [show splitOnChar '|'
        ('|' :: (row.map (fun cell => ' ' :: (cell ++ [' ', '|']))).flatten)
      = [] :: splitOnChar '|'
        ((row.map (fun cell => ' ' :: (cell ++ [' ', '|']))).flatten) by
    simp [splitOnChar]]
  rw [serRow_split row hfree]
  simp only [List.drop_succ_cons, List.drop_zero, List.dropLast_concat, List.map_map]
  have : ∀ cell ∈ row, trimChars (' ' :: (cell ++ [' '])) = cell := by
    intro cell hc
    apply trim_pad
    have := hok cell hc
    unfold cellOk at this
    simp only [Bool.and_eq_true] at this
    have h3 := this.2
    exact beq_iff_eq.mp h3
  calc row.map (trimChars ∘ fun cell => ' ' :: (cell ++ [' ']))
      = row.map id := List.map_congr_left (fun a ha => this a ha)
    _ = row := List.map_id row

theorem trim_eq_self_of (l : List Char)
    (hhead : ∀ c, l.head? = some c → ws c = false)
    (hlast : ∀ c, l.getLast? = some c → ws c = false) : trimChars l = l := by
  cases l with
  | nil => rfl
  | cons c cs =>
    rw [trim_cons_nonws cs (hhead c rfl)]
    congr 1
    apply trimRight_eq_of_getLast
    intro d hd
    apply hlast
    cases cs with
    | nil => simp at hd
    | cons x xs =>
      rw [List.getLast?_cons_cons]
      exact hd

theorem step_para (t : List Char) (M : List (List Char)) (h : paraOk t = true) :
    renderLines (t :: M) = Block.para t :: renderLines M := by
  have h1 : isTableLine t = false := by
    revert h; unfold paraOk; cases isTableLine t <;> simp
  have h2 : isFenceLine t = false := by
    revert h; unfold paraOk; cases isFenceLine t <;> simp
  have h3 : startsWithL t ['#', '#', '#', ' '] = false := by
    revert h; unfold paraOk; cases startsWithL t ['#', '#', '#', ' '] <;> simp
  have h4 : startsWithL t ['#', '#', ' '] = false := by
    revert h; unfold paraOk; cases startsWithL t ['#', '#', ' '] <;> simp
  have h5 : startsWithL t ['#', ' '] = false := by
    revert h; unfold paraOk; cases startsWithL t ['#', ' '] <;> simp
  have h6 : isBulletLine t = false := by
    revert h; unfold paraOk; cases isBulletLine t <;> simp
  have h7 : isNumLine t = false := by
    revert h; unfold paraOk; cases isNumLine t <;> simp
  have h8 : (trimChars t).isEmpty = false := by
    revert h; unfold paraOk; cases (trimChars t).isEmpty <;> simp
  show renderGo (t :: M).length (t :: M) = _
  simp only [List.length_cons, renderGo]
  rw [if_neg (bool_ne_true h1), if_neg (bool_ne_true h2), if_neg (bool_ne_true h3),
    if_neg (bool_ne_true h4), if_neg (bool_ne_true h5), if_neg (bool_ne_true h6),
    if_neg (bool_ne_true h7), if_neg (bool_ne_true h8)]
  rw [renderGo_fuel le_rfl]

theorem step_heading (lvl : Nat) (t : List Char) (M : List (List Char))
    (hlvl : lvl = 1 ∨ lvl = 2 ∨ lvl = 3) :
    renderLines ((List.replicate lvl '#' ++ ' ' :: t) :: M)
      = Block.heading lvl t :: renderLines M := by
  rcases hlvl with rfl | rfl | rfl
  · show renderGo (('#' :: ' ' :: t) :: M).length (('#' :: ' ' :: t) :: M) = _
    simp only [List.length_cons, renderGo]
    rw [if_neg (bool_ne_true (isTableLine_head _ (by decide) (by decide))),
      if_neg (bool_ne_true (isFenceLine_head _ (by decide) (by decide))),
      if_neg (bool_ne_true
        (show startsWithL ('#' :: ' ' :: t) ['#', '#', '#', ' '] = false from rfl)),
      if_neg (bool_ne_true
        (show startsWithL ('#' :: ' ' :: t) ['#', '#', ' '] = false from rfl)),
      if_pos (show startsWithL ('#' :: ' ' :: t) ['#', ' '] = true by
        simp only [startsWithL]
        decide)]
    rw [renderGo_fuel le_rfl]
    rfl
  · show renderGo (('#' :: '#' :: ' ' :: t) :: M).length (('#' :: '#' :: ' ' :: t) :: M) = _
    simp only [List.length_cons, renderGo]
    rw [if_neg (bool_ne_true (isTableLine_head _ (by decide) (by decide))),
      if_neg (bool_ne_true (isFenceLine_head _ (by decide) (by decide))),
      if_neg (bool_ne_true
        (show startsWithL ('#' :: '#' :: ' ' :: t) ['#', '#', '#', ' '] = false from rfl)),
      if_pos (show startsWithL ('#' :: '#' :: ' ' :: t) ['#', '#', ' '] = true by
        simp only [startsWithL]
        decide)]
    rw [renderGo_fuel le_rfl]
    rfl
  · show renderGo (('#' :: '#' :: '#' :: ' ' :: t) :: M).length
      (('#' :: '#' :: '#' :: ' ' :: t) :: M) = _
    simp only [List.length_cons, renderGo]
    rw [if_neg (bool_ne_true (isTableLine_head _ (by decide) (by decide))),
      if_neg (bool_ne_true (isFenceLine_head _ (by decide) (by decide))),
      if_pos (show startsWithL ('#' :: '#' :: '#' :: ' ' :: t) ['#', '#', '#', ' '] = true by
        simp only [startsWithL]
        decide)]
    rw [renderGo_fuel le_rfl]
    rfl

theorem step_brk (M : List (List Char)) :
    renderLines ([] :: M) = Block.brk :: renderLines M := by
  show renderGo (([] : List Char) :: M).length (([] : List Char) :: M) = _
  simp only [List.length_cons, renderGo]
  rw [if_neg (bool_ne_true (by decide : isTableLine [] = false)),
    if_neg (bool_ne_true (by decide : isFenceLine [] = false)),
    if_neg (bool_ne_true (by decide)), if_neg (bool_ne_true (by decide)),
    if_neg (bool_ne_true (by decide)),
    if_neg (bool_ne_true (by decide : isBulletLine [] = false)),
    if_neg (bool_ne_true (by decide : isNumLine [] = false)),
    if_pos (by decide : (trimChars ([] : List Char)).isEmpty = true)]
  rw [renderGo_fuel le_rfl]

theorem step_code (content : List Char) (M : List (List Char))
    (h : ∀ l ∈ splitOnChar '\n' content, isFenceLine l = false) :
    renderLines (['`', '`', '`'] :: (splitOnChar '\n' content ++ ['`', '`', '`'] :: M))
      = Block.codeBlock content :: renderLines M := by
  show renderGo (['`', '`', '`'] ::
    (splitOnChar '\n' content ++ ['`', '`', '`'] :: M)).length _ = _
  simp only [List.length_cons, renderGo]
  rw [if_neg (bool_ne_true (by decide : isTableLine ['`', '`', '`'] = false)),
    if_pos (by decide : isFenceLine ['`', '`', '`'] = true)]
  rw [takeWhile_append_stop (fun l => !isFenceLine l) _ M _
    (fun a ha => by simp [h a ha]) (by decide),
    dropWhile_append_stop (fun l => !isFenceLine l) _ M _
    (fun a ha => by simp [h a ha]) (by decide)]
  simp only [List.drop_succ_cons, List.drop_zero]
  rw [joinLines_splitOnChar]
  rw [renderGo_fuel (by simp [List.length_append]; omega)]

theorem itemOk_ne_nil {it : List Char} (h : itemOk it = true) : it ≠ [] := by
  intro hnil
  subst hnil
  simp [itemOk] at h

theorem itemOk_trimRight {it : List Char} (h : itemOk it = true) :
    trimRightChars it = it := by
  revert h
  unfold itemOk
  intro h
  simp only [Bool.and_eq_true] at h
  exact beq_iff_eq.mp h.2

theorem bulletLine_trim (it : List Char) (hok : itemOk it = true) :
    trimChars ('-' :: ' ' :: it) = '-' :: ' ' :: it := by
  apply trim_eq_self_of
  · intro c hc
    injection hc with h
    subst h
    decide
  · intro c hc
    obtain ⟨x, xs, rfl⟩ := List.exists_cons_of_ne_nil (itemOk_ne_nil hok)
    rw [List.getLast?_cons_cons, List.getLast?_cons_cons] at hc
    exact getLast_nonws_of_trimRight (itemOk_trimRight hok) c hc

theorem bulletLine_isBullet (it : List Char) (hok : itemOk it = true) :
    isBulletLine ('-' :: ' ' :: it) = true := by
  unfold isBulletLine
  rw [bulletLine_trim it hok]
  rfl

theorem bulletLine_strip (it : List Char) (hok : itemOk it = true) :
    stripBullet ('-' :: ' ' :: it) = it := by
  unfold stripBullet
  rw [bulletLine_trim it hok]
  rfl

theorem numLine_trim (it : List Char) (hok : itemOk it = true) :
    trimChars ('1' :: '.' :: ' ' :: it) = '1' :: '.' :: ' ' :: it := by
  apply trim_eq_self_of
  · intro c hc
    injection hc with h
    subst h
    decide
  · intro c hc
    obtain ⟨x, xs, rfl⟩ := List.exists_cons_of_ne_nil (itemOk_ne_nil hok)
    rw [List.getLast?_cons_cons, List.getLast?_cons_cons, List.getLast?_cons_cons] at hc
    exact getLast_nonws_of_trimRight (itemOk_trimRight hok) c hc

theorem numLine_isNum (it : List Char) (hok : itemOk it = true) :
    isNumLine ('1' :: '.' :: ' ' :: it) = true := by
  unfold isNumLine
  rw [numLine_trim it hok]
  rfl

theorem numLine_strip (it : List Char) (hok : itemOk it = true) :
    stripNum ('1' :: '.' :: ' ' :: it) = it := by
  unfold stripNum
  rw [numLine_trim it hok]
  rfl

theorem step_bullets (it0 : List Char) (rest : List (List Char)) (M : List (List Char))
    (hall : ∀ it ∈ it0 :: rest, itemOk it = true)
    (hM : ∀ l, M.head? = some l → isBulletLine l = false) :
    renderLines (((it0 :: rest).map (fun it => '-' :: ' ' :: it)) ++ M)
      = Block.bulletList (it0 :: rest) :: renderLines M := by
  have hb0 := bulletLine_isBullet it0 (hall it0 (List.mem_cons_self it0 rest))
  have hpre : ∀ a ∈ rest.map (fun it => '-' :: ' ' :: it), isBulletLine a = true := by
    intro a ha
    obtain ⟨it, hit, rfl⟩ := List.mem_map.mp ha
    exact bulletLine_isBullet it (hall it (List.mem_cons_of_mem it0 hit))
  simp only [List.map_cons, List.cons_append]
  show renderGo (('-' :: ' ' :: it0) ::
    (rest.map (fun it => '-' :: ' ' :: it) ++ M)).length _ = _
  simp only [List.length_cons, renderGo]
  rw [if_neg (bool_ne_true (isTableLine_head _ (by decide) (by decide))),
    if_neg (bool_ne_true (isFenceLine_head _ (by decide) (by decide))),
    if_neg (bool_ne_true
      (show startsWithL ('-' :: ' ' :: it0) ['#', '#', '#', ' '] = false from rfl)),
    if_neg (bool_ne_true
      (show startsWithL ('-' :: ' ' :: it0) ['#', '#', ' '] = false from rfl)),
    if_neg (bool_ne_true
      (show startsWithL ('-' :: ' ' :: it0) ['#', ' '] = false from rfl)),
    if_pos hb0]
  have htw : (('-' :: ' ' :: it0) ::
      (rest.map (fun it => '-' :: ' ' :: it) ++ M)).takeWhile isBulletLine
      = ('-' :: ' ' :: it0) :: rest.map (fun it => '-' :: ' ' :: it) := by
    rw [List.takeWhile_cons, if_pos hb0]
    congr 1
    cases M with
    | nil =>
      rw [List.append_nil]
      exact takeWhile_eq_self_of_all _ _ hpre
    | cons m ms => exact takeWhile_append_stop _ _ _ _ hpre (hM m rfl)
  have hdw : (('-' :: ' ' :: it0) ::
      (rest.map (fun it => '-' :: ' ' :: it) ++ M)).dropWhile isBulletLine = M := by
    rw [List.dropWhile_cons, if_pos hb0]
    cases M with
    | nil =>
      rw [List.append_nil]
      exact dropWhile_eq_nil_of_all _ _ hpre
    | cons m ms => exact dropWhile_append_stop _ _ _ _ hpre (hM m rfl)
  rw [htw, hdw]
  have hmap : (('-' :: ' ' :: it0) :: rest.map (fun it => '-' :: ' ' :: it)).map stripBullet
      = it0 :: rest := by
    rw [show ('-' :: ' ' :: it0) :: rest.map (fun it => '-' :: ' ' :: it)
        = (it0 :: rest).map (fun it => '-' :: ' ' :: it) from rfl, List.map_map]
    calc (it0 :: rest).map (stripBullet ∘ fun it => '-' :: ' ' :: it)
        = (it0 :: rest).map id :=
          List.map_congr_left (fun a ha => bulletLine_strip a (hall a ha))
      _ = it0 :: rest := List.map_id _
  rw [hmap]
  rw [renderGo_fuel (by simp only [List.length_append, List.length_map]; omega)]

theorem step_nums (it0 : List Char) (rest : List (List Char)) (M : List (List Char))
    (hall : ∀ it ∈ it0 :: rest, itemOk it = true)
    (hM : ∀ l, M.head? = some l → isNumLine l = false) :
    renderLines (((it0 :: rest).map (fun it => '1' :: '.' :: ' ' :: it)) ++ M)
      = Block.numberedList (it0 :: rest) :: renderLines M := by
  have hb0 := numLine_isNum it0 (hall it0 (List.mem_cons_self it0 rest))
  have hpre : ∀ a ∈ rest.map (fun it => '1' :: '.' :: ' ' :: it), isNumLine a = true := by
    intro a ha
    obtain ⟨it, hit, rfl⟩ := List.mem_map.mp ha
    exact numLine_isNum it (hall it (List.mem_cons_of_mem it0 hit))
  simp only [List.map_cons, List.cons_append]
  show renderGo (('1' :: '.' :: ' ' :: it0) ::
    (rest.map (fun it => '1' :: '.' :: ' ' :: it) ++ M)).length _ = _
  simp only [List.length_cons, renderGo]
  rw [if_neg (bool_ne_true (isTableLine_head _ (by decide) (by decide))),
    if_neg (bool_ne_true (isFenceLine_head _ (by decide) (by decide))),
    if_neg (bool_ne_true
      (show startsWithL ('1' :: '.' :: ' ' :: it0) ['#', '#', '#', ' '] = false from rfl)),
    if_neg (bool_ne_true
      (show startsWithL ('1' :: '.' :: ' ' :: it0) ['#', '#', ' '] = false from rfl)),
    if_neg (bool_ne_true
      (show startsWithL ('1' :: '.' :: ' ' :: it0) ['#', ' '] = false from rfl)),
    if_neg (bool_ne_true (isBulletLine_head _ (by decide) (by decide) (by decide) (by decide))),
    if_pos hb0]
  have htw : (('1' :: '.' :: ' ' :: it0) ::
      (rest.map (fun it => '1' :: '.' :: ' ' :: it) ++ M)).takeWhile isNumLine
      = ('1' :: '.' :: ' ' :: it0) :: rest.map (fun it => '1' :: '.' :: ' ' :: it) := by
    rw [List.takeWhile_cons, if_pos hb0]
    congr 1
    cases M with
    | nil =>
      rw [List.append_nil]
      exact takeWhile_eq_self_of_all _ _ hpre
    | cons m ms => exact takeWhile_append_stop _ _ _ _ hpre (hM m rfl)
  have hdw : (('1' :: '.' :: ' ' :: it0) ::
      (rest.map (fun it => '1' :: '.' :: ' ' :: it) ++ M)).dropWhile isNumLine = M := by
    rw [List.dropWhile_cons, if_pos hb0]
    cases M with
    | nil =>
      rw [List.append_nil]
      exact dropWhile_eq_nil_of_all _ _ hpre
    | cons m ms => exact dropWhile_append_stop _ _ _ _ hpre (hM m rfl)
  rw [htw, hdw]
  have hmap : (('1' :: '.' :: ' ' :: it0) ::
      rest.map (fun it => '1' :: '.' :: ' ' :: it)).map stripNum = it0 :: rest := by
    rw [show ('1' :: '.' :: ' ' :: it0) :: rest.map (fun it => '1' :: '.' :: ' ' :: it)
        = (it0 :: rest).map (fun it => '1' :: '.' :: ' ' :: it) from rfl, List.map_map]
    calc (it0 :: rest).map (stripNum ∘ fun it => '1' :: '.' :: ' ' :: it)
        = (it0 :: rest).map id :=
          List.map_congr_left (fun a ha => numLine_strip a (hall a ha))
      _ = it0 :: rest := List.map_id _
  rw [hmap]
  rw [renderGo_fuel (by simp only [List.length_append, List.length_map]; omega)]

theorem rowOk_ne_nil {r : List (List Char)} (h : rowOk r = true) : r ≠ [] := by
  intro hnil
  subst hnil
  revert h
  unfold rowOk
  simp

theorem rowOk_cells {r : List (List Char)} (h : rowOk r = true) :
    ∀ cell ∈ r, cellOk cell = true := by
  revert h
  unfold rowOk
  intro h
  simp only [Bool.and_eq_true] at h
  have := h.1.2
  rw [List.all_eq_true] at this
  exact fun cell hc => this cell hc

theorem rowOk_not_sep {r : List (List Char)} (h : rowOk r = true) :
    isSepRow (trimChars (serRow r)) = false := by
  revert h
  unfold rowOk
  cases isSepRow (trimChars (serRow r)) <;> simp

theorem step_table (hh : List (List Char)) (bb : List (List (List Char)))
    (M : List (List Char)) (hbne : bb ≠ [])
    (hrows : ∀ r ∈ hh :: bb, rowOk r = true)
    (hM : ∀ l, M.head? = some l → isTableLine l = false) :
    renderLines ((hh :: bb).map serRow ++ M) = Block.table hh bb :: renderLines M := by
  have h0 : isTableLine (serRow hh) = true :=
    serRow_isTable hh (rowOk_ne_nil (hrows hh (List.mem_cons_self hh bb)))
  have hpre : ∀ a ∈ bb.map serRow, isTableLine a = true := by
    intro a ha
    obtain ⟨r, hr, rfl⟩ := List.mem_map.mp ha
    exact serRow_isTable r (rowOk_ne_nil (hrows r (List.mem_cons_of_mem hh hr)))
  simp only [List.map_cons, List.cons_append]
  show renderGo (serRow hh :: (bb.map serRow ++ M)).length _ = _
  simp only [List.length_cons, renderGo]
  rw [if_pos h0]
  have htw : (serRow hh :: (bb.map serRow ++ M)).takeWhile isTableLine
      = serRow hh :: bb.map serRow := by
    rw [List.takeWhile_cons, if_pos h0]
    congr 1
    cases M with
    | nil =>
      rw [List.append_nil]
      exact takeWhile_eq_self_of_all _ _ hpre
    | cons m ms => exact takeWhile_append_stop _ _ _ _ hpre (hM m rfl)
  have hdw : (serRow hh :: (bb.map serRow ++ M)).dropWhile isTableLine = M := by
    rw [List.dropWhile_cons, if_pos h0]
    cases M with
    | nil =>
      rw [List.append_nil]
      exact dropWhile_eq_nil_of_all _ _ hpre
    | cons m ms => exact dropWhile_append_stop _ _ _ _ hpre (hM m rfl)
  rw [htw, hdw]
  rw [if_pos (show 2 ≤ (serRow hh :: bb.map serRow).length by
    simp only [List.length_cons, List.length_map]
    have := List.length_pos.mpr hbne
    omega)]
  have hrt : renderTable (serRow hh :: bb.map serRow) = some (Block.table hh bb) := by
    unfold renderTable
    have htrows : tableRows (serRow hh :: bb.map serRow) = hh :: bb := by
      unfold tableRows
      have hfilter : (serRow hh :: bb.map serRow).filter
          (fun l => !isSepRow (trimChars l)) = serRow hh :: bb.map serRow := by
        rw [List.filter_eq_self]
        intro a ha
        have hmem : a ∈ (hh :: bb).map serRow := by
          rw [List.map_cons]
          exact ha
        obtain ⟨r, hr, rfl⟩ := List.mem_map.mp hmem
        simp [rowOk_not_sep (hrows r hr)]
      rw [hfilter]
      show ((hh :: bb).map serRow).map rowCells = hh :: bb
      rw [List.map_map]
      calc (hh :: bb).map (rowCells ∘ serRow)
          = (hh :: bb).map id :=
            List.map_congr_left (fun r hr => serRow_cells r (rowOk_cells (hrows r hr)))
        _ = hh :: bb := List.map_id _
    rw [htrows]
  rw [hrt]
  rw [renderGo_fuel (by simp only [List.length_append, List.length_map]; omega)]

theorem noNl_mem {l : List Char} (h : noNl l = true) : ∀ x ∈ l, x ≠ '\n' := by
  unfold noNl at h
  rw [List.all_eq_true] at h
  intro x hx
  simpa using h x hx

/-- The first serialized line of a well-formed block can only look like a
table line, a bullet line, or a numbered-list line if the block itself is a
table, bullet list, or numbered list respectively. -/
theorem serHead_preds (b : Block) (hwf : wfBlock b = true) (l : List Char)
    (hl : (serBlockLines b).head? = some l) :
    (isTableLine l = true → ∃ hh bb, b = Block.table hh bb)
    ∧ (isBulletLine l = true → ∃ its, b = Block.bulletList its)
    ∧ (isNumLine l = true → ∃ its, b = Block.numberedList its) := by
  cases b with
  | para t =>
    simp only [serBlockLines, List.head?_cons, Option.some.injEq] at hl
    subst hl
    simp only [wfBlock] at hwf
    have g1 : isTableLine t = false := by
      revert hwf; unfold paraOk; cases isTableLine t <;> simp
    have g2 : isBulletLine t = false := by
      revert hwf; unfold paraOk; cases isBulletLine t <;> simp
    have g3 : isNumLine t = false := by
      revert hwf; unfold paraOk; cases isNumLine t <;> simp
    exact ⟨fun hx => absurd hx (bool_ne_true g1),
      fun hx => absurd hx (bool_ne_true g2),
      fun hx => absurd hx (bool_ne_true g3)⟩
  | heading lvl t =>
    simp only [serBlockLines, List.head?_cons, Option.some.injEq] at hl
    subst hl
    simp only [wfBlock, Bool.and_eq_true, Bool.or_eq_true, beq_iff_eq] at hwf
    have hne0 : lvl ≠ 0 := by
      rcases hwf.1 with (h | h) | h <;> omega
    obtain ⟨n, rfl⟩ : ∃ n, lvl = n + 1 := ⟨lvl - 1, by omega⟩
    rw [show List.replicate (n + 1) '#' ++ ' ' :: t
      = '#' :: (List.replicate n '#' ++ ' ' :: t) from rfl]
    refine ⟨fun hx => ?_, fun hx => ?_, fun hx => ?_⟩
    · exact absurd hx (bool_ne_true (isTableLine_head _ (by decide) (by decide)))
    · exact absurd hx (bool_ne_true
        (isBulletLine_head _ (by decide) (by decide) (by decide) (by decide)))
    · exact absurd hx (bool_ne_true (isNumLine_head _ (by decide) (by decide)))
  | bulletList its =>
    simp only [wfBlock, Bool.and_eq_true] at hwf
    obtain ⟨hne', -⟩ := hwf
    obtain ⟨it0, r, rfl⟩ : ∃ a b, its = a :: b := by
      cases its with
      | nil => simp at hne'
      | cons a b => exact ⟨a, b, rfl⟩
    simp only [serBlockLines, List.map_cons, List.head?_cons, Option.some.injEq] at hl
    subst hl
    refine ⟨fun hx => ?_, fun hx => ⟨it0 :: r, rfl⟩, fun hx => ?_⟩
    · exact absurd hx (bool_ne_true (isTableLine_head _ (by decide) (by decide)))
    · exact absurd hx (bool_ne_true (isNumLine_head _ (by decide) (by decide)))
  | numberedList its =>
    simp only [wfBlock, Bool.and_eq_true] at hwf
    obtain ⟨hne', -⟩ := hwf
    obtain ⟨it0, r, rfl⟩ : ∃ a b, its = a :: b := by
      cases its with
      | nil => simp at hne'
      | cons a b => exact ⟨a, b, rfl⟩
    simp only [serBlockLines, List.map_cons, List.head?_cons, Option.some.injEq] at hl
    subst hl
    refine ⟨fun hx => ?_, fun hx => ?_, fun hx => ⟨it0 :: r, rfl⟩⟩
    · exact absurd hx (bool_ne_true (isTableLine_head _ (by decide) (by decide)))
    · exact absurd hx (bool_ne_true
        (isBulletLine_head _ (by decide) (by decide) (by decide) (by decide)))
  | codeBlock c =>
    simp only [serBlockLines, List.head?_cons, Option.some.injEq] at hl
    subst hl
    exact ⟨fun hx => absurd hx (bool_ne_true (by decide)),
      fun hx => absurd hx (bool_ne_true (by decide)),
      fun hx => absurd hx (bool_ne_true (by decide))⟩
  | table hh bb =>
    simp only [wfBlock, Bool.and_eq_true] at hwf
    obtain ⟨-, hall⟩ := hwf
    have hr0 : rowOk hh = true := by
      rw [List.all_eq_true] at hall
      exact hall hh (List.mem_cons_self hh bb)
    obtain ⟨Y, hY⟩ := serRow_shape hh (rowOk_ne_nil hr0)
    simp only [serBlockLines, List.map_cons, List.head?_cons, Option.some.injEq] at hl
    subst hl
    refine ⟨fun hx => ⟨hh, bb, rfl⟩, fun hx => ?_, fun hx => ?_⟩
    · rw [hY] at hx
      exact absurd hx (bool_ne_true
        (isBulletLine_head _ (by decide) (by decide) (by decide) (by decide)))
    · rw [hY] at hx
      exact absurd hx (bool_ne_true (isNumLine_head _ (by decide) (by decide)))
  | brk =>
    simp only [serBlockLines, List.head?_cons, Option.some.injEq] at hl
    subst hl
    exact ⟨fun hx => absurd hx (bool_ne_true (by decide)),
      fun hx => absurd hx (bool_ne_true (by decide)),
      fun hx => absurd hx (bool_ne_true (by decide))⟩
  | nullB => simp [wfBlock] at hwf

theorem serBlockLines_ne_nil (b : Block) (hwf : wfBlock b = true) :
    serBlockLines b ≠ [] := by
  cases b with
  | para t => simp [serBlockLines]
  | heading lvl t => simp [serBlockLines]
  | bulletList its =>
    simp only [wfBlock, Bool.and_eq_true] at hwf
    have hne' := hwf.1
    simp only [serBlockLines]
    intro h
    rw [List.map_eq_nil_iff] at h
    subst h
    simp at hne'
  | numberedList its =>
    simp only [wfBlock, Bool.and_eq_true] at hwf
    have hne' := hwf.1
    simp only [serBlockLines]
    intro h
    rw [List.map_eq_nil_iff] at h
    subst h
    simp at hne'
  | codeBlock c => simp [serBlockLines]
  | table hh bb => simp [serBlockLines]
  | brk => simp [serBlockLines]
  | nullB => simp [wfBlock] at hwf

theorem serLines_noNl (b : Block) (hwf : wfBlock b = true) :
    ∀ l ∈ serBlockLines b, ∀ x ∈ l, x ≠ '\n' := by
  cases b with
  | para t =>
    intro l hl x hx
    simp only [serBlockLines, List.mem_singleton] at hl
    have hn : noNl t = true := by
      revert hwf
      simp only [wfBlock]
      unfold paraOk
      cases noNl t <;> simp
    subst hl
    exact noNl_mem hn x hx
  | heading lvl t =>
    intro l hl x hx
    simp only [serBlockLines, List.mem_singleton] at hl
    have hn : noNl t = true := by
      revert hwf
      simp only [wfBlock]
      cases noNl t <;> simp
    subst hl
    rcases List.mem_append.mp hx with h | h
    · have := List.eq_of_mem_replicate h
      subst this
      decide
    · rcases List.mem_cons.mp h with h | h
      · subst h; decide
      · exact noNl_mem hn x h
  | bulletList its =>
    intro l hl x hx
    simp only [wfBlock, Bool.and_eq_true] at hwf
    have hall := hwf.2
    rw [List.all_eq_true] at hall
    simp only [serBlockLines] at hl
    obtain ⟨it, hit, rfl⟩ := List.mem_map.mp hl
    have hok := hall it hit
    have hn : noNl it = true := by
      revert hok
      unfold itemOk
      cases noNl it <;> simp
    rcases List.mem_cons.mp hx with h | h
    · subst h; decide
    · rcases List.mem_cons.mp h with h | h
      · subst h; decide
      · exact noNl_mem hn x h
  | numberedList its =>
    intro l hl x hx
    simp only [wfBlock, Bool.and_eq_true] at hwf
    have hall := hwf.2
    rw [List.all_eq_true] at hall
    simp only [serBlockLines] at hl
    obtain ⟨it, hit, rfl⟩ := List.mem_map.mp hl
    have hok := hall it hit
    have hn : noNl it = true := by
      revert hok
      unfold itemOk
      cases noNl it <;> simp
    rcases List.mem_cons.mp hx with h | h
    · subst h; decide
    · rcases List.mem_cons.mp h with h | h
      · subst h; decide
      · rcases List.mem_cons.mp h with h | h
        · subst h; decide
        · exact noNl_mem hn x h
  | codeBlock c =>
    intro l hl x hx
    simp only [serBlockLines] at hl
    rcases List.mem_cons.mp hl with h | h
    · subst h
      rcases List.mem_cons.mp hx with h | h
      · subst h; decide
      · rcases List.mem_cons.mp h with h | h
        · subst h; decide
        · rcases List.mem_singleton.mp h with rfl; decide
    · rcases List.mem_append.mp h with h | h
      · exact splitOnChar_pieces_ne '\n' c l h x hx
      · rcases List.mem_singleton.mp h with rfl
        rcases List.mem_cons.mp hx with h | h
        · subst h; decide
        · rcases List.mem_cons.mp h with h | h
          · subst h; decide
          · rcases List.mem_singleton.mp h with rfl; decide
  | table hh bb =>
    intro l hl x hx
    simp only [wfBlock, Bool.and_eq_true] at hwf
    have hall := hwf.2
    rw [List.all_eq_true] at hall
    simp only [serBlockLines] at hl
    obtain ⟨r, hr, rfl⟩ := List.mem_map.mp hl
    have hcells := rowOk_cells (hall r hr)
    unfold serRow at hx
    rcases List.mem_cons.mp hx with h | h
    · subst h; decide
    · rw [List.mem_flatten] at h
      obtain ⟨seg, hseg, hxseg⟩ := h
      obtain ⟨cell, hcell, rfl⟩ := List.mem_map.mp hseg
      have hok := hcells cell hcell
      have hn : noNl cell = true := by
        revert hok
        unfold cellOk
        cases noNl cell <;> simp
      rcases List.mem_cons.mp hxseg with h | h
      · subst h; decide
      · rcases List.mem_append.mp h with h | h
        · exact noNl_mem hn x h
        · rcases List.mem_cons.mp h with h | h
          · subst h; decide
          · rcases List.mem_singleton.mp h with rfl; decide
  | brk =>
    intro l hl x hx
    simp only [serBlockLines, List.mem_singleton] at hl
    subst hl
    simp at hx
  | nullB => simp [wfBlock] at hwf

theorem wfBlocks_head {b : Block} {rest : List Block}
    (h : wfBlocks (b :: rest) = true) : wfBlock b = true := by
  cases rest with
  | nil => exact h
  | cons b2 r2 =>
    revert h
    simp only [wfBlocks, Bool.and_eq_true]
    intro h
    exact h.1.1

theorem wfBlocks_tail {b b2 : Block} {r2 : List Block}
    (h : wfBlocks (b :: b2 :: r2) = true) : wfBlocks (b2 :: r2) = true := by
  revert h
  simp only [wfBlocks, Bool.and_eq_true]
  intro h
  exact h.2

theorem wfBlocks_not_same {b b2 : Block} {r2 : List Block}
    (h : wfBlocks (b :: b2 :: r2) = true) : sameRunKind b b2 = false := by
  revert h
  simp only [wfBlocks, Bool.and_eq_true]
  intro h
  have := h.1.2
  revert this
  cases sameRunKind b b2 <;> simp

/-- Re-segmenting the serialized lines of a well-formed block sequence
reproduces the sequence. -/
theorem roundtrip_lines :
    ∀ bs : List Block, wfBlocks bs = true →
      renderLines ((bs.map serBlockLines).flatten) = bs := by
  intro bs
  induction bs with
  | nil =>
    intro h
    simp [wfBlocks] at h
  | cons b rest ih =>
    intro h
    have hwfb : wfBlock b = true := wfBlocks_head h
    have hrest : renderLines ((rest.map serBlockLines).flatten) = rest := by
      cases rest with
      | nil => rfl
      | cons b2 r2 => exact ih (wfBlocks_tail h)
    cases b with
    | para t =>
      have hp : paraOk t = true := hwfb
      have hstep := step_para t ((rest.map serBlockLines).flatten) hp
      rw [hrest] at hstep
      exact hstep
    | heading lvl t =>
      have hlvl : lvl = 1 ∨ lvl = 2 ∨ lvl = 3 := by
        revert hwfb
        simp only [wfBlock, Bool.and_eq_true, Bool.or_eq_true, beq_iff_eq]
        intro hw
        rcases hw.1 with (h' | h') | h'
        · exact Or.inl h'
        · exact Or.inr (Or.inl h')
        · exact Or.inr (Or.inr h')
      have hstep := step_heading lvl t ((rest.map serBlockLines).flatten) hlvl
      rw [hrest] at hstep
      exact hstep
    | brk =>
      have hstep := step_brk ((rest.map serBlockLines).flatten)
      rw [hrest] at hstep
      exact hstep
    | codeBlock c =>
      have hfences : ∀ l ∈ splitOnChar '\n' c, isFenceLine l = false := by
        intro l hl
        revert hwfb
        simp only [wfBlock]
        intro hw
        rw [List.all_eq_true] at hw
        have := hw l hl
        revert this
        cases isFenceLine l <;> simp
      have hstep := step_code c ((rest.map serBlockLines).flatten) hfences
      rw [hrest] at hstep
      show renderLines ((['`', '`', '`'] :: (splitOnChar '\n' c ++ [['`', '`', '`']]))
        ++ (rest.map serBlockLines).flatten) = _
      rw [List.cons_append, List.append_assoc, List.singleton_append]
      exact hstep
    | bulletList its =>
      have hits : ∀ it ∈ its, itemOk it = true := by
        revert hwfb
        simp only [wfBlock, Bool.and_eq_true]
        intro hw
        rw [List.all_eq_true] at hw
        exact fun it hit => hw.2 it hit
      have hne' : its ≠ [] := by
        revert hwfb
        simp only [wfBlock, Bool.and_eq_true]
        intro hw hnil
        subst hnil
        simp at hw
      obtain ⟨it0, r, rfl⟩ := List.exists_cons_of_ne_nil hne'
      have hMb : ∀ l, ((rest.map serBlockLines).flatten).head? = some l →
          isBulletLine l = false := by
        intro l hl
        cases rest with
        | nil => simp at hl
        | cons b2 r2 =>
          have hwfb2 : wfBlock b2 = true := wfBlocks_head (wfBlocks_tail h)
          have hsk : sameRunKind (Block.bulletList (it0 :: r)) b2 = false :=
            wfBlocks_not_same h
          obtain ⟨a, as, ha⟩ := List.exists_cons_of_ne_nil (serBlockLines_ne_nil b2 hwfb2)
          rw [List.map_cons, List.flatten_cons, ha, List.cons_append,
            List.head?_cons] at hl
          injection hl with hal
          subst hal
          cases hbl : isBulletLine a
          · rfl
          · obtain ⟨its2, rfl⟩ := (serHead_preds b2 hwfb2 a
              (by rw [ha]; rfl)).2.1 hbl
            simp [sameRunKind] at hsk
      have hstep := step_bullets it0 r ((rest.map serBlockLines).flatten)
        hits hMb
      rw [hrest] at hstep
      exact hstep
    | numberedList its =>
      have hits : ∀ it ∈ its, itemOk it = true := by
        revert hwfb
        simp only [wfBlock, Bool.and_eq_true]
        intro hw
        rw [List.all_eq_true] at hw
        exact fun it hit => hw.2 it hit
      have hne' : its ≠ [] := by
        revert hwfb
        simp only [wfBlock, Bool.and_eq_true]
        intro hw hnil
        subst hnil
        simp at hw
      obtain ⟨it0, r, rfl⟩ := List.exists_cons_of_ne_nil hne'
      have hMn : ∀ l, ((rest.map serBlockLines).flatten).head? = some l →
          isNumLine l = false := by
        intro l hl
        cases rest with
        | nil => simp at hl
        | cons b2 r2 =>
          have hwfb2 : wfBlock b2 = true := wfBlocks_head (wfBlocks_tail h)
          have hsk : sameRunKind (Block.numberedList (it0 :: r)) b2 = false :=
            wfBlocks_not_same h
          obtain ⟨a, as, ha⟩ := List.exists_cons_of_ne_nil (serBlockLines_ne_nil b2 hwfb2)
          rw [List.map_cons, List.flatten_cons, ha, List.cons_append,
            List.head?_cons] at hl
          injection hl with hal
          subst hal
          cases hbl : isNumLine a
          · rfl
          · obtain ⟨its2, rfl⟩ := (serHead_preds b2 hwfb2 a
              (by rw [ha]; rfl)).2.2 hbl
            simp [sameRunKind] at hsk
      have hstep := step_nums it0 r ((rest.map serBlockLines).flatten)
        hits hMn
      rw [hrest] at hstep
      exact hstep
    | table hh bb =>
      have hrows : ∀ r ∈ hh :: bb, rowOk r = true := by
        revert hwfb
        simp only [wfBlock, Bool.and_eq_true]
        intro hw
        rw [List.all_eq_true] at hw
        exact fun r hr => hw.2 r hr
      have hbne : bb ≠ [] := by
        revert hwfb
        simp only [wfBlock, Bool.and_eq_true]
        intro hw hnil
        subst hnil
        simp at hw
      have hMt : ∀ l, ((rest.map serBlockLines).flatten).head? = some l →
          isTableLine l = false := by
        intro l hl
        cases rest with
        | nil => simp at hl
        | cons b2 r2 =>
          have hwfb2 : wfBlock b2 = true := wfBlocks_head (wfBlocks_tail h)
          have hsk : sameRunKind (Block.table hh bb) b2 = false :=
            wfBlocks_not_same h
          obtain ⟨a, as, ha⟩ := List.exists_cons_of_ne_nil (serBlockLines_ne_nil b2 hwfb2)
          rw [List.map_cons, List.flatten_cons, ha, List.cons_append,
            List.head?_cons] at hl
          injection hl with hal
          subst hal
          cases hbl : isTableLine a
          · rfl
          · obtain ⟨hh2, bb2, rfl⟩ := (serHead_preds b2 hwfb2 a
              (by rw [ha]; rfl)).1 hbl
            simp [sameRunKind] at hsk
      have hstep := step_table hh bb ((rest.map serBlockLines).flatten)
        hbne hrows hMt
      rw [hrest] at hstep
      exact hstep
    | nullB => simp [wfBlock] at hwfb

theorem wfBlocks_forall :
    ∀ {bs : List Block}, wfBlocks bs = true → ∀ b ∈ bs, wfBlock b = true := by
  intro bs
  induction bs with
  | nil =>
    intro h
    simp [wfBlocks] at h
  | cons b rest ih =>
    intro h b' hb'
    rcases List.mem_cons.mp hb' with rfl | hb'
    · exact wfBlocks_head h
    · cases rest with
      | nil => simp at hb'
      | cons b2 r2 => exact ih (wfBlocks_tail h) b' hb'

/-- Claim C9: segmentation is idempotent under re-serialization: for every
input whose produced block sequence is well formed (`wfBlocks`: nonempty, no
`null` table element, blocks whose trivially serialized lines are re-read as
the same block, and no two adjacent blocks of the same line-run kind),
serializing the produced block sequence back to text and re-segmenting that
text yields the same block sequence. -/
theorem segmentation_idem (text : List Char)
    (h : wfBlocks (renderMarkdown text) = true) :
    renderMarkdown (serialize (renderMarkdown text)) = renderMarkdown text := by
  have key : ∀ bs : List Block, wfBlocks bs = true →
      renderMarkdown (serialize bs) = bs := by
    intro bs hbs
    have hne : (bs.map serBlockLines).flatten ≠ [] := by
      cases bs with
      | nil => simp [wfBlocks] at hbs
      | cons b rest =>
        have hwfb := wfBlocks_head hbs
        obtain ⟨a, as, ha⟩ := List.exists_cons_of_ne_nil (serBlockLines_ne_nil b hwfb)
        simp [List.map_cons, List.flatten_cons, ha]
    have hnl : ∀ l ∈ (bs.map serBlockLines).flatten, ∀ x ∈ l, x ≠ '\n' := by
      intro l hl x hx
      rw [List.mem_flatten] at hl
      obtain ⟨lines, hlines, hml⟩ := hl
      obtain ⟨b, hb, rfl⟩ := List.mem_map.mp hlines
      exact serLines_noNl b (wfBlocks_forall hbs b hb) l hml x hx
    unfold renderMarkdown serialize
    rw [splitOnChar_joinLines _ hne hnl]
    exact roundtrip_lines bs hbs
  exact key (renderMarkdown text) h

/-- Witness for C9 on a concrete document containing a heading, a paragraph,
a bullet list, a blank line, a code block and a table. -/
theorem segmentation_idem_wit :
    renderMarkdown (serialize (renderMarkdown
      ("# Title\nhello\n- a\n- b\n\n```\ncode\n```\n| A | B |\n| - | - |\n| 1 | 2 |".toList)))
      = renderMarkdown
      ("# Title\nhello\n- a\n- b\n\n```\ncode\n```\n| A | B |\n| - | - |\n| 1 | 2 |".toList) :=
  segmentation_idem _ (by decide)

end MdRender
